import Mathlib

/-!
Verification of the symbol-table indexing engine (Symtab.cpp), the Itanium ABI
dynamic-type resolver (ItaniumABILanguageRuntime.cpp) and the dispatch
introspection handlers (AppleGetQueuesHandler.cpp, AppleGetPendingItemsHandler.cpp)
against their natural-language specification, through a shallow embedding of the
relevant functions.
-/

namespace LLDB

/-- Models the LLDB_INVALID_ADDRESS constant, UINT64_MAX. -/
def LLDB_INVALID_ADDRESS : Nat := 18446744073709551615

/-- Models the subset of lldb::SymbolType values the embedded functions inspect
(eSymbolTypeAny, eSymbolTypeCode, eSymbolTypeResolver, eSymbolTypeReExported,
eSymbolTypeTrampoline, eSymbolTypeData; all remaining values are collapsed into
`other` since the embedded code treats them uniformly). -/
inductive SymbolType where
  | any
  | code
  | resolver
  | reexported
  | trampoline
  | data
  | other
deriving DecidableEq, Repr, Inhabited

/-- Modelled from the spec: the per-symbol record (SymbolRecord, spec section 3);
the Symbol class itself is not among the provided sources but its accessors are
used throughout Symtab.cpp.  `uid` is GetID(), `valueIsAddress`/`fileAddress`
model ValueIsAddress() and GetAddressRef().GetFileAddress(), `byteSize` is
GetByteSize() (0 meaning "no size reported", per the spec "may be 0/absent until
computed"), `sizeIsSynthesized` is the SetSizeIsSynthesized flag, and
`mangledName`/`demangledName` are the interned Mangled name pair.  `linkerAnnots`
models ContainsLinkerAnnotations(). -/
structure Symbol where
  uid : Nat
  symType : SymbolType := .other
  valueIsAddress : Bool := false
  fileAddress : Nat := 0
  byteSize : Nat := 0
  sizeIsSynthesized : Bool := false
  mangledName : String := ""
  demangledName : String := ""
  linkerAnnots : Bool := false
deriving DecidableEq, Repr, Inhabited

/-- Models Symbol::IsTrampoline, which tests the symbol type. -/
def Symbol.isTrampoline (s : Symbol) : Bool :=
  decide (s.symType = .trampoline)

/-- Models Symbol::GetFileAddress: the resolved file address, or
LLDB_INVALID_ADDRESS when the symbol's value is not an address. -/
def Symbol.getFileAddress (s : Symbol) : Nat :=
  if s.valueIsAddress = true then s.fileAddress else LLDB_INVALID_ADDRESS

/-- Modelled from the spec: Symbol::GetByteSizeIsValid.  In the source era
Symbol::SetByteSize sets the validity flag to `size > 0`, so a symbol's size is
valid exactly when it is non-zero ("size may be 0/absent until computed"). -/
def Symbol.byteSizeIsValid (s : Symbol) : Bool :=
  decide (s.byteSize ≠ 0)

/-- Modelled from the spec (section 6, consumed collaborator contracts): the
demangling and name-parsing collaborators are pure functions.  `demangleCxx`
is Mangled::GetDemangledName(eLanguageTypeC_plus_plus); `cxxBasename`,
`cxxContext` and `cxxQualifiers` are the CPlusPlusLanguage::MethodName accessors
applied to a demangled name; `objcValid`, `objcSelector` and
`objcFullNoCategory` are the ObjCLanguage::MethodName accessors (an empty string
from `objcFullNoCategory` models an invalid ConstString); `stripAnnots` is
ObjectFile::StripLinkerSymbolAnnotations. -/
structure Externals where
  demangleCxx : String → String
  cxxBasename : String → String
  cxxContext : String → String
  cxxQualifiers : String → String
  objcValid : String → Bool
  objcSelector : String → String
  objcFullNoCategory : String → String
  stripAnnots : String → String

mutual
/-- Models a section from the object file's section tree: base file address,
byte size, and child sections. -/
inductive SectNode where
  | mk (base : Nat) (size : Nat) (children : SectForest)

/-- Models a SectionList: an ordered forest of sections. -/
inductive SectForest where
  | nil
  | cons (s : SectNode) (rest : SectForest)
end

/-- Models a RangeVector entry holding a section's base file address and size. -/
structure SectRange where
  base : Nat
  size : Nat
deriving DecidableEq, Repr, Inhabited

mutual
/-- Translates AddSectionsToRangeMap (Symtab.cpp): a section with children
contributes only its children's leaf ranges, a leaf section contributes its own
(base, size) range. -/
def sectLeaves : SectNode → List SectRange
  | .mk b sz .nil => [⟨b, sz⟩]
  | .mk _ _ (.cons c cs) => sectForestLeaves (.cons c cs)

/-- Translates the loop of AddSectionsToRangeMap over a SectionList. -/
def sectForestLeaves : SectForest → List SectRange
  | .nil => []
  | .cons s rest => sectLeaves s ++ sectForestLeaves rest
end

/-- Stable insertion of an element into a list: the element is placed before the
first entry `b` with `le a b`. -/
def insertStable {α : Type} (le : α → α → Bool) (a : α) : List α → List α
  | [] => [a]
  | b :: l => if le a b = true then a :: b :: l else b :: insertStable le a l

/-- Stable sort by insertion.  This models std::stable_sort: for a strict weak
order comparator the output of any stable sort is uniquely determined by the
comparator and the input order, so this structurally recursive sort is
observationally identical to the library sort used by the source.  It also
models std::sort at the call sites that sort plain integer values, where the
output (the sorted permutation) does not depend on stability. -/
def stableSort {α : Type} (le : α → α → Bool) : List α → List α
  | [] => []
  | a :: l => insertStable le a (stableSort le l)

/-- Models the entries of the FileRangeToIndexMap (m_file_addr_to_index):
base file address, byte size, and the symbol's position in the table. -/
structure FileRangeEntry where
  base : Nat
  size : Nat
  data : Nat
deriving DecidableEq, Repr, Inhabited

/-- Comparator for FileRangeToIndexMap::Sort, modelled from the spec: the
address index is "sorted by base address". -/
def fileRangeLe (a b : FileRangeEntry) : Bool :=
  decide (a.base ≤ b.base)

/-- Comparator for the section RangeVector sort, modelled from the spec: the
flattened leaf section list is "sorted once" by base address. -/
def sectRangeLe (a b : SectRange) : Bool :=
  decide (a.base ≤ b.base)

/-- Modelled from the spec: RangeVector::FindEntryThatContains returns the entry
of the sorted vector whose half-open range [base, base + size) contains the
address (the first such entry in sorted order), or none. -/
def findContainingRange (rs : List SectRange) (addr : Nat) : Option SectRange :=
  rs.find? (fun r => decide (r.base ≤ addr ∧ addr < r.base + r.size))

/-- Models a UniqueCStringMap<uint32_t> as an insertion-ordered list of
(interned string, symbol index) entries.  The source's Sort() orders entries by
interned-string pointer with the relative order of equal strings irrelevant to
every embedded lookup, so Sort()/SizeToFit() are modelled as the identity and
GetValues as a filter over the insertion-ordered entries, which yields the same
value multiset for every name. -/
abbrev NameMap := List (String × Nat)

/-- Models UniqueCStringMap::GetValues: all values whose entry carries the
given string. -/
def nameMapGetValues (m : NameMap) (name : String) : List Nat :=
  (m.filter (fun e => decide (e.1 = name))).map Prod.snd

/-- Models the Symtab class state: the object file's section list, the symbol
vector, the file-address index and its computed flag, and the four name
indexes with their computed flag. -/
structure Symtab where
  sections : SectForest
  symbols : List Symbol := []
  fileAddrToIndex : List FileRangeEntry := []
  fileAddrToIndexComputed : Bool := false
  nameToIndex : NameMap := []
  basenameToIndex : NameMap := []
  methodToIndex : NameMap := []
  selectorToIndex : NameMap := []
  nameIndexesComputed : Bool := false

/-- Models the Symtab constructor: empty symbol vector, empty indexes, both
computed flags false. -/
def Symtab.empty (sections : SectForest) : Symtab :=
  { sections := sections }

/-- Translates Symtab::AddSymbol: appends the symbol, clears m_name_to_index and
m_file_addr_to_index, and resets both computed flags.  (The returned insertion
position, m_symbols.size() before the append, is not modelled as the claims do
not use it.) -/
def Symtab.addSymbol (st : Symtab) (sym : Symbol) : Symtab :=
  { st with symbols := st.symbols ++ [sym],
            nameToIndex := [],
            fileAddrToIndex := [],
            fileAddrToIndexComputed := false,
            nameIndexesComputed := false }

/-- Translates Symtab::SymbolAtIndex: bounds-checked positional access. -/
def Symtab.symbolAtIndex (st : Symtab) (i : Nat) : Option Symbol :=
  st.symbols.get? i

/-- Translates Symtab::FindSymbolByID.  The source runs ::bsearch with
CompareSymbolID over the backing store, which requires the store to be sorted
by id and returns null when it is empty; on an id-sorted store this is the
(unique) symbol with the matching id, modelled as the first match in table
order. -/
def Symtab.findSymbolByID (st : Symtab) (uid : Nat) : Option Symbol :=
  st.symbols.find? (fun s => decide (s.uid = uid))

/-- Models the working state of Symtab::InitNameIndexes: the four persistent
name maps plus the pass-local data (the class_contexts set of interned context
strings, the temporary mangled_name_to_index map of deferred entries, and the
symbol_contexts vector, modelled as an association list from symbol index to its
recorded context). -/
structure NamePassState where
  nameToIndex : NameMap
  basenameToIndex : NameMap
  methodToIndex : NameMap
  selectorToIndex : NameMap
  classContexts : List String
  deferredNames : NameMap
  symbolContexts : List (Nat × String)

/-- Appends one entry to the full-name index (m_name_to_index.Append). -/
def NamePassState.appendName (ps : NamePassState) (e : String × Nat) : NamePassState :=
  { ps with nameToIndex := ps.nameToIndex ++ [e] }

/-- Appends one entry to the basename index (m_basename_to_index.Append). -/
def NamePassState.appendBasename (ps : NamePassState) (e : String × Nat) : NamePassState :=
  { ps with basenameToIndex := ps.basenameToIndex ++ [e] }

/-- Appends one entry to the method index (m_method_to_index.Append). -/
def NamePassState.appendMethod (ps : NamePassState) (e : String × Nat) : NamePassState :=
  { ps with methodToIndex := ps.methodToIndex ++ [e] }

/-- Appends one entry to the selector index (m_selector_to_index.Append). -/
def NamePassState.appendSel (ps : NamePassState) (e : String × Nat) : NamePassState :=
  { ps with selectorToIndex := ps.selectorToIndex ++ [e] }

/-- Records a class context in the class_contexts set (insert if missing). -/
def NamePassState.recordContext (ps : NamePassState) (ctx : String) : NamePassState :=
  { ps with classContexts := if ctx ∈ ps.classContexts then ps.classContexts else ps.classContexts ++ [ctx] }

/-- Stashes a deferred entry: mangled_name_to_index.Append plus the
symbol_contexts[index] assignment. -/
def NamePassState.deferEntry (ps : NamePassState) (e : String × Nat) (ctx : String) : NamePassState :=
  { ps with deferredNames := ps.deferredNames ++ [e],
            symbolContexts := ps.symbolContexts ++ [(e.2, ctx)] }

/-- Translates the C++-mangling recognizer of InitNameIndexes: the name starts
with the characters '_' 'Z' and the third character is none of 'T', 'G', 'Z'
(the source reads the C string, so a name that is exactly "_Z" passes the third
test against the NUL terminator). -/
def isCxxMangledCandidate (s : String) : Bool :=
  match s.data with
  | '_' :: 'Z' :: rest =>
    match rest with
    | c :: _ => decide (c ≠ 'T' ∧ c ≠ 'G' ∧ c ≠ 'Z')
    | [] => true
  | _ => false

/-- Tests whether a demangled basename starts with the destructor marker
(basename[0] == the tilde character). -/
def startsWithTilde (s : String) : Bool :=
  match s.data with
  | c :: _ => decide (c = '~')
  | [] => false

/-- Translates the C++ method classification of InitNameIndexes (the body of
the "_Z" branch): extract basename/context/qualifiers from the C++-demangled
name; a destructor basename or non-empty qualifiers confirm the context as a
class and the entry goes to METHODS; otherwise a non-empty context goes to
METHODS when already known, and is deferred when unknown; an empty context goes
to BASENAMES. -/
def classifyCxxSymbol (ext : Externals) (ps : NamePassState) (i : Nat) (sym : Symbol) : NamePassState :=
  let dem := ext.demangleCxx sym.mangledName
  let basename := ext.cxxBasename dem
  if basename ≠ "" then
    let ctx := ext.cxxContext dem
    if startsWithTilde basename = true ∨ ext.cxxQualifiers dem ≠ "" then
      (ps.recordContext ctx).appendMethod (basename, i)
    else if ctx ≠ "" then
      if ctx ∈ ps.classContexts then
        ps.appendMethod (basename, i)
      else
        ps.deferEntry (basename, i) ctx
    else
      ps.appendBasename (basename, i)
  else
    ps

/-- Translates the mangled-name block of the InitNameIndexes loop body: append
the mangled name (and, with linker annotations, the stripped form) to the ALL
index, then run the C++ classification for code/resolver symbols whose current
entry string (the stripped form when annotations are present) looks
C++-mangled. -/
def processMangled (ext : Externals) (ps : NamePassState) (i : Nat) (sym : Symbol) : NamePassState :=
  if sym.mangledName ≠ "" then
    let ps1 := ps.appendName (sym.mangledName, i)
    let checkName := if sym.linkerAnnots = true then ext.stripAnnots sym.mangledName else sym.mangledName
    let ps2 := if sym.linkerAnnots = true then ps1.appendName (checkName, i) else ps1
    if sym.symType = .code ∨ sym.symType = .resolver then
      if isCxxMangledCandidate checkName = true then
        classifyCxxSymbol ext ps2 i sym
      else ps2
    else ps2
  else
    ps

/-- Translates the demangled-name and Objective-C block of the InitNameIndexes
loop body: append the language-specific demangled name (and stripped variant
with annotations) to the ALL index; then, on the string left in the loop's
entry variable (the stripped demangled form when annotations are present,
otherwise the demangled name), parse an Objective-C method name, appending its
selector to SELECTORS and the category-stripped full name to ALL. -/
def processDemangled (ext : Externals) (ps : NamePassState) (i : Nat) (sym : Symbol) : NamePassState :=
  let dem := sym.demangledName
  let ps1 :=
    if dem ≠ "" then
      let a := ps.appendName (dem, i)
      if sym.linkerAnnots = true then a.appendName (ext.stripAnnots dem, i) else a
    else ps
  let objcName := if dem ≠ "" ∧ sym.linkerAnnots = true then ext.stripAnnots dem else dem
  if ext.objcValid objcName = true then
    let ps2 := ps1.appendSel (ext.objcSelector objcName, i)
    let nc := ext.objcFullNoCategory objcName
    if nc ≠ "" then ps2.appendName (nc, i) else ps2
  else ps1

/-- Translates one iteration of the InitNameIndexes loop for the symbol at the
given table position: trampolines are skipped, otherwise the mangled block runs
followed by the demangled/Objective-C block. -/
def processSymbol (ext : Externals) (ps : NamePassState) (iv : Nat × Symbol) : NamePassState :=
  if iv.2.isTrampoline = true then ps
  else processDemangled ext (processMangled ext ps iv.1 iv.2) iv.1 iv.2

/-- Models the state at the start of InitNameIndexes: the four persistent maps
as stored in the table, and empty pass-local collections (class_contexts,
mangled_name_to_index and symbol_contexts are locals of the function). -/
def initialPassState (st : Symtab) : NamePassState :=
  { nameToIndex := st.nameToIndex,
    basenameToIndex := st.basenameToIndex,
    methodToIndex := st.methodToIndex,
    selectorToIndex := st.selectorToIndex,
    classContexts := [],
    deferredNames := [],
    symbolContexts := [] }

/-- Translates the main loop of Symtab::InitNameIndexes over the symbol vector
in table order. -/
def namePass (ext : Externals) (st : Symtab) : NamePassState :=
  st.symbols.enum.foldl (processSymbol ext) (initialPassState st)

/-- Models symbol_contexts[i]: the context recorded for symbol index i, if any. -/
def lookupSymbolContext (scs : List (Nat × String)) (i : Nat) : Option String :=
  (scs.find? (fun p => decide (p.1 = i))).map Prod.snd

/-- Translates the condition of the deferred-resolution loop of
InitNameIndexes: symbol_contexts[entry.value] is set and is a known class
context. -/
def deferredIsKnownClassB (ps : NamePassState) (p : String × Nat) : Bool :=
  match lookupSymbolContext ps.symbolContexts p.2 with
  | some ctx => decide (ctx ∈ ps.classContexts)
  | none => false

/-- Translates one iteration of the deferred-resolution loop of
InitNameIndexes: a known class context sends the entry to METHODS alone,
anything else sends it to both METHODS and BASENAMES. -/
def resolveDeferredEntry (ps : NamePassState) (p : String × Nat) : NamePassState :=
  if deferredIsKnownClassB ps p = true then
    ps.appendMethod p
  else
    (ps.appendMethod p).appendBasename p

/-- Translates the deferred-resolution loop of InitNameIndexes over the
temporary mangled_name_to_index collection in insertion order. -/
def resolveDeferred (ps : NamePassState) : NamePassState :=
  ps.deferredNames.foldl resolveDeferredEntry ps

/-- Translates Symtab::InitNameIndexes: a no-op once m_name_indexes_computed is
set; otherwise runs the main loop and the deferred-resolution loop and stores
the four resulting indexes with the computed flag set.  (The final
Sort()/SizeToFit() calls are modelled as the identity, see NameMap.) -/
def Symtab.initNameIndexes (ext : Externals) (st : Symtab) : Symtab :=
  if st.nameIndexesComputed = true then st
  else
    let ps := resolveDeferred (namePass ext st)
    { st with nameToIndex := ps.nameToIndex,
              basenameToIndex := ps.basenameToIndex,
              methodToIndex := ps.methodToIndex,
              selectorToIndex := ps.selectorToIndex,
              nameIndexesComputed := true }

/-- Translates Symtab::AppendSymbolIndexesWithName (name-only overload): after
the lazy InitNameIndexes, all values of the ALL index for the name; an invalid
(empty) name yields no indexes. -/
def Symtab.appendSymbolIndexesWithName (ext : Externals) (st : Symtab) (name : String) : List Nat :=
  if name ≠ "" then nameMapGetValues (st.initNameIndexes ext).nameToIndex name else []

/-- Translates Symtab::AppendSymbolIndexesWithNameAndType (name and type
overload): the name matches filtered to the requested symbol type, with
eSymbolTypeAny keeping everything. -/
def Symtab.appendSymbolIndexesWithNameAndType (ext : Externals) (st : Symtab) (name : String) (t : SymbolType) : List Nat :=
  (st.appendSymbolIndexesWithName ext name).filter
    (fun i => decide (t = .any ∨ (st.symbols.getD i default).symType = t))

/-- Translates Symtab::FindAllSymbolsWithNameAndType, which initializes the
name indexes and then delegates to AppendSymbolIndexesWithNameAndType. -/
def Symtab.findAllSymbolsWithNameAndType (ext : Externals) (st : Symtab) (name : String) (t : SymbolType) : List Nat :=
  st.appendSymbolIndexesWithNameAndType ext name t

/-- Modelled from the spec: the lldb::FunctionNameType bit for automatic
resolution (pre-resolved before FindFunctionSymbols runs). -/
def eFunctionNameTypeAuto : Nat := 2

/-- Modelled from the spec: the lldb::FunctionNameType bit selecting the exact
full/mangled-name strategy. -/
def eFunctionNameTypeFull : Nat := 4

/-- Modelled from the spec: the lldb::FunctionNameType bit selecting the
basename strategy (and, together with Full, the exact-name strategy). -/
def eFunctionNameTypeBase : Nat := 8

/-- Modelled from the spec: the lldb::FunctionNameType bit selecting the
method-table strategy. -/
def eFunctionNameTypeMethod : Nat := 16

/-- Modelled from the spec: the lldb::FunctionNameType bit selecting the
selector-table strategy. -/
def eFunctionNameTypeSel : Nat := 32

/-- Translates the first strategy of Symtab::FindFunctionSymbols (mask has Base
or Full): exact-name matches of any type, kept only when the symbol's type is
eSymbolTypeCode, eSymbolTypeResolver or eSymbolTypeReExported. -/
def Symtab.ffsFullBaseIndexes (ext : Externals) (st : Symtab) (name : String) : List Nat :=
  (st.findAllSymbolsWithNameAndType ext name .any).filter
    (fun i =>
      match (st.symbols.getD i default).symType with
      | .code => true
      | .resolver => true
      | .reexported => true
      | _ => false)

/-- Translates the basename strategy of Symtab::FindFunctionSymbols: all
m_basename_to_index values for the name, after the lazy InitNameIndexes. -/
def Symtab.ffsBasenameIndexes (ext : Externals) (st : Symtab) (name : String) : List Nat :=
  nameMapGetValues (st.initNameIndexes ext).basenameToIndex name

/-- Translates the method strategy of Symtab::FindFunctionSymbols: all
m_method_to_index values for the name, after the lazy InitNameIndexes. -/
def Symtab.ffsMethodIndexes (ext : Externals) (st : Symtab) (name : String) : List Nat :=
  nameMapGetValues (st.initNameIndexes ext).methodToIndex name

/-- Translates the selector strategy of Symtab::FindFunctionSymbols: all
m_selector_to_index values for the name, after the lazy InitNameIndexes. -/
def Symtab.ffsSelIndexes (ext : Externals) (st : Symtab) (name : String) : List Nat :=
  nameMapGetValues (st.initNameIndexes ext).selectorToIndex name

/-- Comparator used where the source sorts plain uint32_t indexes. -/
def natLe (a b : Nat) : Bool :=
  decide (a ≤ b)

/-- Models the effect of std::unique followed by erase on a list: adjacent
duplicates removed, keeping the first element of each run. -/
def dedupAdjacent : List Nat → List Nat
  | [] => []
  | [a] => [a]
  | a :: b :: l => if a = b then dedupAdjacent (b :: l) else a :: dedupAdjacent (b :: l)

/-- Translates the strategy union of Symtab::FindFunctionSymbols: each of the
four lookup strategies contributes its indexes when its name-type bit is
selected by the mask. -/
def Symtab.ffsCollectedIndexes (ext : Externals) (st : Symtab) (name : String) (mask : Nat) : List Nat :=
  (if mask &&& (eFunctionNameTypeBase ||| eFunctionNameTypeFull) ≠ 0 then st.ffsFullBaseIndexes ext name else []) ++
  (if mask &&& eFunctionNameTypeBase ≠ 0 then st.ffsBasenameIndexes ext name else []) ++
  (if mask &&& eFunctionNameTypeMethod ≠ 0 then st.ffsMethodIndexes ext name else []) ++
  (if mask &&& eFunctionNameTypeSel ≠ 0 then st.ffsSelIndexes ext name else [])

/-- Translates the index collection of Symtab::FindFunctionSymbols: the four
strategies selected by the name-type bitmask are unioned into one vector, which
(when non-empty) is sorted with std::sort and deduplicated with
std::unique + erase. -/
def Symtab.findFunctionSymbolIndexes (ext : Externals) (st : Symtab) (name : String) (mask : Nat) : List Nat :=
  let all := st.ffsCollectedIndexes ext name mask
  if all = [] then [] else dedupAdjacent (stableSort natLe all)

/-- Translates Symtab::FindFunctionSymbols composed with
SymbolIndicesToSymbolContextList: the deduplicated index list materialized as
symbols.  (AppendIfUnique compares symbol contexts by symbol pointer identity,
so distinct table positions never collapse; the materialization is therefore
the positional lookup of every collected index.) -/
def Symtab.findFunctionSymbols (ext : Externals) (st : Symtab) (name : String) (mask : Nat) : List Symbol :=
  (st.findFunctionSymbolIndexes ext name mask).filterMap st.symbolAtIndex

/-- Translates the entry-collection loop of Symtab::InitAddressIndexes: one
(base address, declared size, table position) entry per symbol whose value is
an address. -/
def Symtab.addressEntries (st : Symtab) : List FileRangeEntry :=
  st.symbols.enum.filterMap
    (fun iv =>
      if iv.2.valueIsAddress = true then
        some { base := iv.2.fileAddress, size := iv.2.byteSize, data := iv.1 }
      else none)

/-- The collected address entries after the first m_file_addr_to_index.Sort()
call of InitAddressIndexes. -/
def Symtab.addressEntriesSorted (st : Symtab) : List FileRangeEntry :=
  stableSort fileRangeLe st.addressEntries

/-- The flattened leaf-section ranges of the object file after the
section_ranges.Sort() call of InitAddressIndexes. -/
def Symtab.sectionRangesSorted (st : Symtab) : List SectRange :=
  stableSort sectRangeLe (sectForestLeaves st.sections)

/-- Translates the size-synthesis computation of InitAddressIndexes for the
entry at position i of the sorted entry vector: the default candidate is the
distance from the entry's base to the end of its containing section (0 when no
section contains it); then the forward scan finds the first entry with a
strictly greater base, and the distance to it replaces the candidate when the
candidate is 0 or the distance is smaller.  (The scan reads only entry base
addresses, which the loop never mutates, so it is computed from the
pre-synthesis vector.) -/
def synthSizeFor (sections : List SectRange) (entries : List FileRangeEntry) (i : Nat) : Nat :=
  let e := entries.getD i default
  let secSize : Nat :=
    match findContainingRange sections e.base with
    | some cs => cs.size - (e.base - cs.base)
    | none => 0
  match (entries.drop i).find? (fun ne => decide (e.base < ne.base)) with
  | some ne =>
    let toNext := ne.base - e.base
    if secSize = 0 ∨ toNext < secSize then toNext else secSize
  | none => secSize

/-- Translates the per-entry effect of the synthesis loop of
InitAddressIndexes on the entry vector: an entry with a zero size receives the
synthesized size when it is positive. -/
def synthEntry (sections : List SectRange) (entries : List FileRangeEntry) (i : Nat) : FileRangeEntry :=
  let e := entries.getD i default
  if e.size = 0 then
    let sz := synthSizeFor sections entries i
    if 0 < sz then { e with size := sz } else e
  else e

/-- Translates the symbol update of the synthesis loop: m_symbols[entry->data]
receives the synthesized size with the size-is-synthesized flag set. -/
def updateSymbolSize (syms : List Symbol) (pos sz : Nat) : List Symbol :=
  match syms.get? pos with
  | some s => syms.set pos { s with byteSize := sz, sizeIsSynthesized := true }
  | none => syms

/-- Translates the effect of the synthesis loop of InitAddressIndexes on the
symbol vector: for every entry position with a zero declared size and a
positive synthesized size, the referenced symbol is updated. -/
def synthSymbols (sections : List SectRange) (entries : List FileRangeEntry) (syms : List Symbol) : List Symbol :=
  (List.range entries.length).foldl
    (fun ss i =>
      let e := entries.getD i default
      if e.size = 0 then
        let sz := synthSizeFor sections entries i
        if 0 < sz then updateSymbolSize ss e.data sz else ss
      else ss)
    syms

/-- Translates Symtab::InitAddressIndexes: a no-op when already computed or
when the table is empty; otherwise collects and sorts the address entries,
synthesizes sizes for zero-sized entries bounded by the containing section and
the next higher-addressed entry, updates the affected symbols, and re-sorts the
entry vector. -/
def Symtab.initAddressIndexes (st : Symtab) : Symtab :=
  if st.fileAddrToIndexComputed = true ∨ st.symbols = [] then st
  else
    let entries := st.addressEntriesSorted
    if entries = [] then
      { st with fileAddrToIndexComputed := true, fileAddrToIndex := [] }
    else
      let sections := st.sectionRangesSorted
      { st with fileAddrToIndexComputed := true,
                fileAddrToIndex := stableSort fileRangeLe ((List.range entries.length).map (synthEntry sections entries)),
                symbols := synthSymbols sections entries st.symbols }

/-- Translates one iteration of Symtab::CalculateSymbolSizes: a symbol whose
size is already valid is left alone, otherwise a positive entry size is copied
onto it with the size-is-synthesized flag set. -/
def calcStep (ss : List Symbol) (e : FileRangeEntry) : List Symbol :=
  match ss.get? e.data with
  | some sym =>
    if sym.byteSizeIsValid = true then ss
    else if 0 < e.size then ss.set e.data { sym with byteSize := e.size, sizeIsSynthesized := true }
    else ss
  | none => ss

/-- Translates Symtab::CalculateSymbolSizes: for a non-empty table, lazily
initializes the address indexes and copies each entry's (possibly synthesized)
size onto its symbol when that symbol's own size is not yet valid. -/
def Symtab.calculateSymbolSizes (st : Symtab) : Symtab :=
  if st.symbols = [] then st
  else
    let st1 := st.initAddressIndexes
    { st1 with symbols := st1.fileAddrToIndex.foldl calcStep st1.symbols }

/-- Translates Symtab::FindSymbolAtFileAddress: after the lazy
InitAddressIndexes, the entry starting exactly at the address (modelled from
the spec as the first such entry, matching FindEntryStartsAt) is resolved to
its symbol, which is returned only when its file address matches. -/
def Symtab.findSymbolAtFileAddress (st : Symtab) (addr : Nat) : Option Symbol :=
  let st1 := st.initAddressIndexes
  match st1.fileAddrToIndex.find? (fun e => decide (e.base = addr)) with
  | some e =>
    match st1.symbolAtIndex e.data with
    | some sym => if sym.getFileAddress = addr then some sym else none
    | none => none
  | none => none

/-- Models the address resolution of the SymbolIndexComparator: the symbol's
resolved file address.  (The comparator's addr_cache is initialized with
LLDB_INVALID_ADDRESS and filled on first use, so it is observationally the
direct computation modelled here.) -/
def Symtab.resolvedFileAddress (st : Symtab) (i : Nat) : Nat :=
  (st.symbols.getD i default).getFileAddress

/-- Translates SymbolIndexComparator::operator(): strictly less by resolved
file address, with equal addresses ordered by symbol id. -/
def symbolIndexLt (st : Symtab) (a b : Nat) : Bool :=
  let va := st.resolvedFileAddress a
  let vb := st.resolvedFileAddress b
  if va = vb then decide ((st.symbols.getD a default).uid < (st.symbols.getD b default).uid)
  else decide (va < vb)

/-- Models the post-state of std::unique on a vector of trivially copyable
values when its return value is discarded and no erase follows: the
adjacent-deduplicated values occupy the front, and the positions past the
returned iterator keep their previous contents, so the vector keeps its full
length. -/
def stdUniqueNoErase (l : List Nat) : List Nat :=
  dedupAdjacent l ++ l.drop (dedupAdjacent l).length

/-- Translates Symtab::SortSymbolIndexesByValue: lists of at most one index are
returned unchanged; otherwise the indexes are stably sorted with
SymbolIndexComparator and, when requested, std::unique runs over the result
(its return value is discarded by the source, so the vector is not shortened). -/
def Symtab.sortSymbolIndexesByValue (st : Symtab) (indexes : List Nat) (removeDuplicates : Bool) : List Nat :=
  if indexes.length ≤ 1 then indexes
  else
    let sorted := stableSort (fun a b => ! symbolIndexLt st b a) indexes
    if removeDuplicates = true then stdUniqueNoErase sorted else sorted

/-- Models one candidate type produced by the FindTypes lookups in
ItaniumABILanguageRuntime::GetDynamicTypeAndAddress: its id, whether
ClangASTContext::IsCXXClassType holds of its forward compiler type, and an
identifier for that compiler type (two types with the same identifier are
AreTypesSame). -/
structure TypeCandidate where
  uid : Nat
  isCxxClass : Bool
  compilerType : Nat
deriving DecidableEq, Repr, Inhabited

/-- Translates the match-count dispatch of GetDynamicTypeAndAddress (lines
158-224): zero matches fail; exactly one match is taken as is; with several
matches the first candidate that is a confirmed C++ class type is taken, and
the call fails when none qualifies. -/
def selectDynamicTypeMatch (cands : List TypeCandidate) : Option TypeCandidate :=
  if cands.length = 0 then none
  else if cands.length = 1 then cands.get? 0
  else cands.find? (fun t => t.isCxxClass)

/-- Translates the type-match resolution of GetDynamicTypeAndAddress (lines
158-240): the match-count dispatch followed by the static-type comparison — a
resolved type identical to the value's static type reports no dynamic type.
The result none models the early returns of false; some models continuing to
the offset-to-top computation with the accepted type. -/
def resolveDynamicTypeMatches (cands : List TypeCandidate) (staticType : Nat) : Option TypeCandidate :=
  match selectDynamicTypeMatch cands with
  | none => none
  | some t => if t.compilerType = staticType then none else some t

/-- Models the collaborating machinery of one GetCurrentQueues/GetPendingItems
call (spec section 6: process memory and function execution are external
collaborators): whether the thread is safe to call functions on, the result of
AllocateMemory for the return buffer (none models an error or
LLDB_INVALID_ADDRESS result), whether the utility-function implementation code
exists after the setup call (compile and install succeeded), whether
GetFunctionCaller() is non-null, whether ExecuteFunction returned
eExpressionCompleted with the error still clear, and the three
ReadUnsignedIntegerFromMemory results for the return buffer fields (none
models a read whose Error fails; such a read yields its fail value). -/
structure HandlerWorld where
  safeToCall : Bool
  allocOk : Bool
  utilityCompiled : Bool
  callerOk : Bool
  execCompleted : Bool
  readPtr : Option Nat
  readSize : Option Nat
  readCount : Option Nat

/-- Models the get_current_queues_return_values struct read back by
AppleGetQueuesHandler::GetCurrentQueues (and the corresponding pending-items
struct): buffer pointer, buffer size, count. -/
structure QueuesReturnInfo where
  bufferPtr : Nat
  bufferSize : Nat
  count : Nat
deriving DecidableEq, Repr

/-- Translates AppleGetQueuesHandler::GetCurrentQueues (the control flow over
the collaborator outcomes; `cachedBuf` models m_get_queues_return_buffer_addr,
allocated once): every failure path returns the initial
{LLDB_INVALID_ADDRESS, 0, 0} value, except that a failure while reading the
size or count fields keeps the already-read fields other than the pointer,
which is reset to LLDB_INVALID_ADDRESS (the failed read itself yields its fail
value 0). -/
def getCurrentQueues (w : HandlerWorld) (cachedBuf : Option Nat) : QueuesReturnInfo :=
  let rv : QueuesReturnInfo := { bufferPtr := LLDB_INVALID_ADDRESS, bufferSize := 0, count := 0 }
  if w.safeToCall = false then rv
  else
    let haveBuf := cachedBuf.isSome || w.allocOk
    if haveBuf = false then rv
    else if w.utilityCompiled = false then rv
    else if w.callerOk = false then rv
    else if w.execCompleted = false then rv
    else
      match w.readPtr with
      | none => rv
      | some p =>
        if p = LLDB_INVALID_ADDRESS then rv
        else
          match w.readSize with
          | none => rv
          | some sz =>
            match w.readCount with
            | none => { bufferPtr := LLDB_INVALID_ADDRESS, bufferSize := sz, count := 0 }
            | some c => { bufferPtr := p, bufferSize := sz, count := c }

/-- Translates AppleGetPendingItemsHandler::GetPendingItems.  Unlike
GetCurrentQueues, the source dereferences m_get_pending_items_impl_code with
GetFunctionCaller() without first checking it for null, and
SetupGetPendingItemsFunction resets that member on a compile/install failure;
that path is a null-pointer dereference, modelled as none.  Every other path
returns the struct exactly as GetCurrentQueues does. -/
def getPendingItems (w : HandlerWorld) (cachedBuf : Option Nat) : Option QueuesReturnInfo :=
  let rv : QueuesReturnInfo := { bufferPtr := LLDB_INVALID_ADDRESS, bufferSize := 0, count := 0 }
  if w.safeToCall = false then some rv
  else
    let haveBuf := cachedBuf.isSome || w.allocOk
    if haveBuf = false then some rv
    else if w.utilityCompiled = false then none
    else if w.callerOk = false then some rv
    else if w.execCompleted = false then some rv
    else
      match w.readPtr with
      | none => some rv
      | some p =>
        if p = LLDB_INVALID_ADDRESS then some rv
        else
          match w.readSize with
          | none => some rv
          | some sz =>
            match w.readCount with
            | none => some { bufferPtr := LLDB_INVALID_ADDRESS, bufferSize := sz, count := 0 }
            | some c => some { bufferPtr := p, bufferSize := sz, count := c }

/-- The spec's test scenario, symbol id=1: code symbol at file address 0x1000
with no declared size and mangled name _ZN1A3fooEv. -/
def scenarioFoo : Symbol :=
  { uid := 1, symType := .code, valueIsAddress := true, fileAddress := 4096,
    byteSize := 0, mangledName := "_ZN1A3fooEv", demangledName := "A::foo()" }

/-- The spec's test scenario, symbol id=2: code symbol at file address 0x1010
with no declared size and mangled name _ZN1A3barEv. -/
def scenarioBar : Symbol :=
  { uid := 2, symType := .code, valueIsAddress := true, fileAddress := 4112,
    byteSize := 0, mangledName := "_ZN1A3barEv", demangledName := "A::bar()" }

/-- The spec's test scenario, symbol id=3: data symbol g_var at file address
0x2000 with declared size 0x100. -/
def scenarioGvar : Symbol :=
  { uid := 3, symType := .data, valueIsAddress := true, fileAddress := 8192,
    byteSize := 256, demangledName := "g_var" }

/-- The spec's test scenario section list: one leaf section [0x1000, 0x1020). -/
def scenarioSections : SectForest :=
  .cons (.mk 4096 32 .nil) .nil

/-- The spec's test scenario table: the three symbols added in order to a fresh
table over the scenario section list. -/
def scenarioSymtab : Symtab :=
  (((Symtab.empty scenarioSections).addSymbol scenarioFoo).addSymbol scenarioBar).addSymbol scenarioGvar

/-- Concrete demangling collaborators for the spec's test scenario:
_ZN1A3fooEv and _ZN1A3barEv demangle to methods foo and bar in class context A
with no qualifiers; nothing parses as Objective-C; no linker annotations. -/
def scenarioExt : Externals :=
  { demangleCxx := fun s =>
      if s = "_ZN1A3fooEv" then "A::foo()" else if s = "_ZN1A3barEv" then "A::bar()" else ""
  , cxxBasename := fun s =>
      if s = "A::foo()" then "foo" else if s = "A::bar()" then "bar" else ""
  , cxxContext := fun s =>
      if s = "A::foo()" ∨ s = "A::bar()" then "A" else ""
  , cxxQualifiers := fun _ => ""
  , objcValid := fun _ => false
  , objcSelector := fun _ => ""
  , objcFullNoCategory := fun _ => ""
  , stripAnnots := fun s => s }

/-- A collaborator outcome where the thread is safe and the return buffer
allocates, but the utility function fails to compile/install (the setup call
resets the implementation code and returns LLDB_INVALID_ADDRESS). -/
def compileFailWorld : HandlerWorld :=
  { safeToCall := true, allocOk := true, utilityCompiled := false,
    callerOk := false, execCompleted := false,
    readPtr := none, readSize := none, readCount := none }

/-- The lexicographic (resolved file address, symbol id) ordering that
SortSymbolIndexesByValue establishes: addresses ascend, and indexes whose
symbols share an address are ordered by ascending id. -/
def sortKeyLe (st : Symtab) (a b : Nat) : Prop :=
  st.resolvedFileAddress a < st.resolvedFileAddress b ∨
    (st.resolvedFileAddress a = st.resolvedFileAddress b ∧
      (st.symbols.getD a default).uid ≤ (st.symbols.getD b default).uid)

/-- Inserting an element permutes with prepending it. -/
theorem insertStable_perm {α : Type} (le : α → α → Bool) (a : α) (l : List α) :
    (insertStable le a l).Perm (a :: l) := by
  induction l with
  | nil => simp [insertStable]
  | cons b t ih =>
    by_cases h : le a b = true
    · simp [insertStable, h]
    · rw [insertStable, if_neg h]
      exact (ih.cons b).trans (List.Perm.swap a b t)

/-- The stable sort is a permutation of its input. -/
theorem stableSort_perm {α : Type} (le : α → α → Bool) (l : List α) :
    (stableSort le l).Perm l := by
  induction l with
  | nil => simp [stableSort]
  | cons a t ih => exact (insertStable_perm le a (stableSort le t)).trans (ih.cons a)

/-- Membership is preserved by the stable sort. -/
theorem mem_stableSort {α : Type} {le : α → α → Bool} {x : α} {l : List α} :
    x ∈ stableSort le l ↔ x ∈ l :=
  (stableSort_perm le l).mem_iff

/-- Inserting into a pairwise-ordered list keeps it pairwise ordered, for a
total and transitive comparator. -/
theorem pairwise_insertStable {α : Type} {le : α → α → Bool}
    (htot : ∀ a b, le a b = true ∨ le b a = true)
    (htr : ∀ a b c, le a b = true → le b c = true → le a c = true)
    (a : α) {l : List α} (hl : l.Pairwise (fun x y => le x y = true)) :
    (insertStable le a l).Pairwise (fun x y => le x y = true) := by
  induction l with
  | nil => simp [insertStable]
  | cons b t ih =>
    rcases List.pairwise_cons.mp hl with ⟨hb, ht⟩
    by_cases h : le a b = true
    · rw [insertStable, if_pos h]
      refine List.pairwise_cons.mpr ⟨?_, hl⟩
      intro y hy
      rcases List.mem_cons.mp hy with rfl | hy2
      · exact h
      · exact htr a b y h (hb y hy2)
    · rw [insertStable, if_neg h]
      have hba : le b a = true := (htot a b).resolve_left h
      refine List.pairwise_cons.mpr ⟨?_, ih ht⟩
      intro y hy
      have hy3 : y = a ∨ y ∈ t := by
        have := (insertStable_perm le a t).mem_iff.mp hy
        simpa using this
      rcases hy3 with rfl | hy4
      · exact hba
      · exact hb y hy4

/-- The stable sort produces a pairwise-ordered list, for a total and
transitive comparator. -/
theorem pairwise_stableSort {α : Type} {le : α → α → Bool}
    (htot : ∀ a b, le a b = true ∨ le b a = true)
    (htr : ∀ a b c, le a b = true → le b c = true → le a c = true)
    (l : List α) :
    (stableSort le l).Pairwise (fun x y => le x y = true) := by
  induction l with
  | nil => simp [stableSort]
  | cons a t ih => exact pairwise_insertStable htot htr a ih

/-- Inserting an element ordered before the whole list just prepends it. -/
theorem insertStable_eq_cons {α : Type} {le : α → α → Bool} {a : α} {l : List α}
    (h : ∀ y ∈ l, le a y = true) : insertStable le a l = a :: l := by
  cases l with
  | nil => rfl
  | cons b t => rw [insertStable, if_pos (h b (by simp))]

/-- Sorting a pairwise-ordered list is the identity. -/
theorem stableSort_of_pairwise {α : Type} {le : α → α → Bool} {l : List α}
    (h : l.Pairwise (fun x y => le x y = true)) : stableSort le l = l := by
  induction l with
  | nil => rfl
  | cons a t ih =>
    rcases List.pairwise_cons.mp h with ⟨ha, ht⟩
    rw [stableSort, ih ht, insertStable_eq_cons ha]

/-- Adjacent deduplication preserves membership. -/
theorem mem_dedupAdjacent : ∀ (l : List Nat) (x : Nat), x ∈ dedupAdjacent l ↔ x ∈ l
  | [], x => by simp [dedupAdjacent]
  | [a], x => by simp [dedupAdjacent]
  | a :: b :: l, x => by
    by_cases h : a = b
    · subst h
      rw [dedupAdjacent, if_pos rfl, mem_dedupAdjacent (a :: l) x]
      simp
    · rw [dedupAdjacent, if_neg h]
      simp [mem_dedupAdjacent (b :: l) x]

/-- Adjacent deduplication keeps the head of a non-empty list. -/
theorem dedupAdjacent_cons : ∀ (l : List Nat) (b : Nat), ∃ t, dedupAdjacent (b :: l) = b :: t
  | [], b => ⟨[], rfl⟩
  | c :: m, b => by
    by_cases h : b = c
    · obtain ⟨t, ht⟩ := dedupAdjacent_cons m c
      exact ⟨t, by rw [dedupAdjacent, if_pos h, ht, h]⟩
    · exact ⟨dedupAdjacent (c :: m), by rw [dedupAdjacent, if_neg h]⟩

/-- Adjacent deduplication of a non-strictly increasing chain is strictly
increasing. -/
theorem chain'_dedupAdjacent : ∀ {l : List Nat},
    List.Chain' (· ≤ ·) l → List.Chain' (· < ·) (dedupAdjacent l)
  | [], _ => by simp [dedupAdjacent]
  | [a], _ => by simp [dedupAdjacent]
  | a :: b :: l, h => by
    have hab : a ≤ b := (List.chain'_cons.mp h).1
    have ht : List.Chain' (· ≤ ·) (b :: l) := (List.chain'_cons.mp h).2
    by_cases hd : a = b
    · rw [dedupAdjacent, if_pos hd]
      exact chain'_dedupAdjacent ht
    · rw [dedupAdjacent, if_neg hd]
      obtain ⟨t, htl⟩ := dedupAdjacent_cons l b
      have hrec := chain'_dedupAdjacent ht
      rw [htl] at hrec ⊢
      exact List.chain'_cons.mpr ⟨lt_of_le_of_ne hab hd, hrec⟩

/-- Adjacent deduplication of a non-strictly sorted list is strictly sorted. -/
theorem pairwise_lt_dedupAdjacent {l : List Nat} (h : l.Pairwise (· ≤ ·)) :
    (dedupAdjacent l).Pairwise (· < ·) :=
  List.chain'_iff_pairwise.mp (chain'_dedupAdjacent h.chain')

/-- C1: For the spec scenario table, calling SortSymbolIndexesByValue with
removeDuplicates = true on the index list [0, 0] leaves the list at its full
length with the duplicate index value 0 still occurring twice: the source
discards the iterator returned by std::unique and never erases the tail, so
exact duplicates are not removed, contradicting the claim that every duplicate
index value occurs exactly once afterwards. -/
theorem sortSymbolIndexes_removeDuplicates_not_removed :
    Symtab.sortSymbolIndexesByValue scenarioSymtab [0, 0] true = [0, 0] ∧
    (Symtab.sortSymbolIndexesByValue scenarioSymtab [0, 0] true).count 0 = 2 :=
  ⟨by decide, by decide⟩

/-- C4: Running InitNameIndexes twice with no intervening mutation is a no-op
on the second call (the computed flag short-circuits it), so the two runs
produce identical contents in all four name indexes. -/
theorem initNameIndexes_idempotent (ext : Externals) (st : Symtab) :
    (st.initNameIndexes ext).initNameIndexes ext = st.initNameIndexes ext ∧
    ((st.initNameIndexes ext).initNameIndexes ext).nameToIndex = (st.initNameIndexes ext).nameToIndex ∧
    ((st.initNameIndexes ext).initNameIndexes ext).basenameToIndex = (st.initNameIndexes ext).basenameToIndex ∧
    ((st.initNameIndexes ext).initNameIndexes ext).methodToIndex = (st.initNameIndexes ext).methodToIndex ∧
    ((st.initNameIndexes ext).initNameIndexes ext).selectorToIndex = (st.initNameIndexes ext).selectorToIndex := by
  have hflag : (st.initNameIndexes ext).nameIndexesComputed = true := by
    by_cases h : st.nameIndexesComputed = true <;> simp [Symtab.initNameIndexes, h]
  have hnoop : (st.initNameIndexes ext).initNameIndexes ext = st.initNameIndexes ext := by
    rw [Symtab.initNameIndexes, if_pos hflag]
  exact ⟨hnoop, by rw [hnoop], by rw [hnoop], by rw [hnoop], by rw [hnoop]⟩

/-- C7: The dynamic-type resolver's match selection: zero type matches fail
(no dynamic type, not an error); exactly one match is accepted; with several
matches the first candidate that is a confirmed C++ class type is chosen and
the call fails when none qualifies; and an accepted type is never identical to
the value's static type — when the resolved type equals the static type the
call reports no dynamic type. -/
theorem dynamicTypeMatchSelection :
    (∀ s : Nat, resolveDynamicTypeMatches [] s = none) ∧
    (∀ (t : TypeCandidate) (s : Nat), t.compilerType ≠ s →
      resolveDynamicTypeMatches [t] s = some t) ∧
    (∀ (cands : List TypeCandidate) (s : Nat), 1 < cands.length →
      (∀ t ∈ cands, t.isCxxClass = false) → resolveDynamicTypeMatches cands s = none) ∧
    (∀ (cands : List TypeCandidate) (s : Nat) (t : TypeCandidate), 1 < cands.length →
      cands.find? (fun c => c.isCxxClass) = some t → t.compilerType ≠ s →
      resolveDynamicTypeMatches cands s = some t) ∧
    (∀ (cands : List TypeCandidate) (s : Nat) (t : TypeCandidate),
      resolveDynamicTypeMatches cands s = some t → t.compilerType ≠ s) := by
  refine ⟨fun s => rfl, ?_, ?_, ?_, ?_⟩
  · intro t s h
    simp [resolveDynamicTypeMatches, selectDynamicTypeMatch, h]
  · intro cands s hlen hnone
    have h0 : ¬(cands.length = 0) := by omega
    have h1 : ¬(cands.length = 1) := by omega
    have hfind : cands.find? (fun t => t.isCxxClass) = none := by
      refine List.find?_eq_none.mpr ?_
      intro x hx
      simp [hnone x hx]
    simp [resolveDynamicTypeMatches, selectDynamicTypeMatch, h0, h1, hfind]
  · intro cands s t hlen hfind hne
    have h0 : ¬(cands.length = 0) := by omega
    have h1 : ¬(cands.length = 1) := by omega
    simp [resolveDynamicTypeMatches, selectDynamicTypeMatch, h0, h1, hfind, hne]
  · intro cands s t h
    rw [resolveDynamicTypeMatches] at h
    cases hsel : selectDynamicTypeMatch cands with
    | none => simp [hsel] at h
    | some u =>
      simp only [hsel] at h
      by_cases he : u.compilerType = s
      · simp [he] at h
      · simp only [if_neg he, Option.some.injEq] at h
        subst h
        exact he

/-- C7 witness: a single match differing from the static type is accepted. -/
theorem dynamicTypeMatchSelection_witness :
    resolveDynamicTypeMatches [{ uid := 1, isCxxClass := true, compilerType := 5 }] 7 =
      some { uid := 1, isCxxClass := true, compilerType := 5 } :=
  dynamicTypeMatchSelection.2.1 { uid := 1, isCxxClass := true, compilerType := 5 } 7 (by decide)

/-- C10: On the failure path where the utility function fails to compile or
install, AppleGetPendingItemsHandler::GetPendingItems does not return the
{LLDB_INVALID_ADDRESS, 0} result claimed: SetupGetPendingItemsFunction resets
m_get_pending_items_impl_code and GetPendingItems then calls
GetFunctionCaller() through the null pointer (modelled as none), while
AppleGetQueuesHandler::GetCurrentQueues guards the same path and returns the
claimed failure value. -/
theorem getPendingItems_compileFailure_crash :
    getPendingItems compileFailWorld none = none ∧
    getCurrentQueues compileFailWorld none =
      { bufferPtr := LLDB_INVALID_ADDRESS, bufferSize := 0, count := 0 } :=
  ⟨rfl, rfl⟩

/-- C9: Every embedded query on an empty symbol table returns a null or empty
result by early return: FindSymbolByID, FindSymbolAtFileAddress (whose lazy
InitAddressIndexes is itself a no-op on an empty table), the name-index-backed
AppendSymbolIndexesWithName, and FindFunctionSymbols. -/
theorem emptySymtabQueries (sections : SectForest) (ext : Externals)
    (uid addr mask : Nat) (name : String) :
    (Symtab.empty sections).findSymbolByID uid = none ∧
    (Symtab.empty sections).findSymbolAtFileAddress addr = none ∧
    Symtab.appendSymbolIndexesWithName ext (Symtab.empty sections) name = [] ∧
    Symtab.findFunctionSymbols ext (Symtab.empty sections) name mask = [] := by
  have hn : Symtab.appendSymbolIndexesWithName ext (Symtab.empty sections) name = [] := by
    by_cases h : name = ""
    · simp [Symtab.appendSymbolIndexesWithName, h]
    · rw [Symtab.appendSymbolIndexesWithName, if_pos h]
      rfl
  refine ⟨rfl, rfl, hn, ?_⟩
  have h1 : Symtab.ffsFullBaseIndexes ext (Symtab.empty sections) name = [] := by
    rw [Symtab.ffsFullBaseIndexes, Symtab.findAllSymbolsWithNameAndType,
        Symtab.appendSymbolIndexesWithNameAndType, hn]
    rfl
  have h2 : Symtab.ffsBasenameIndexes ext (Symtab.empty sections) name = [] := rfl
  have h3 : Symtab.ffsMethodIndexes ext (Symtab.empty sections) name = [] := rfl
  have h4 : Symtab.ffsSelIndexes ext (Symtab.empty sections) name = [] := rfl
  rw [Symtab.findFunctionSymbols, Symtab.findFunctionSymbolIndexes]
  simp [Symtab.ffsCollectedIndexes, h1, h2, h3, h4]

/-- The comparator decides the strict lexicographic (address, id) order. -/
theorem symbolIndexLt_iff (st : Symtab) (a b : Nat) :
    symbolIndexLt st a b = true ↔
      (st.resolvedFileAddress a < st.resolvedFileAddress b ∨
        (st.resolvedFileAddress a = st.resolvedFileAddress b ∧
          (st.symbols.getD a default).uid < (st.symbols.getD b default).uid)) := by
  unfold symbolIndexLt
  by_cases h : st.resolvedFileAddress a = st.resolvedFileAddress b
  · rw [if_pos h]
    simp only [decide_eq_true_eq]
    omega
  · rw [if_neg h]
    simp only [decide_eq_true_eq]
    constructor
    · exact fun hv => Or.inl hv
    · intro hv
      rcases hv with hv | ⟨he, _⟩
      · exact hv
      · exact absurd he h

/-- With at most one index, SortSymbolIndexesByValue returns its input. -/
theorem sortSymbolIndexesByValue_short (st : Symtab) (indexes : List Nat) (r : Bool)
    (h : indexes.length ≤ 1) :
    st.sortSymbolIndexesByValue indexes r = indexes := by
  rw [Symtab.sortSymbolIndexesByValue, if_pos h]

/-- Without duplicate removal, SortSymbolIndexesByValue of a longer list is the
stable sort under the symbol-index comparator. -/
theorem sortSymbolIndexesByValue_false_eq (st : Symtab) (indexes : List Nat)
    (h : ¬ indexes.length ≤ 1) :
    st.sortSymbolIndexesByValue indexes false =
      stableSort (fun a b => ! symbolIndexLt st b a) indexes := by
  rw [Symtab.sortSymbolIndexesByValue, if_neg h]
  rfl

/-- The negated comparator is total. -/
theorem symbolIndexLe_total (st : Symtab) (a b : Nat) :
    (! symbolIndexLt st b a) = true ∨ (! symbolIndexLt st a b) = true := by
  simp only [Bool.not_eq_true']
  rw [Bool.eq_false_iff, Bool.eq_false_iff, ne_eq, ne_eq, symbolIndexLt_iff, symbolIndexLt_iff]
  omega

/-- The negated comparator is transitive. -/
theorem symbolIndexLe_trans (st : Symtab) (a b c : Nat)
    (h1 : (! symbolIndexLt st b a) = true) (h2 : (! symbolIndexLt st c b) = true) :
    (! symbolIndexLt st c a) = true := by
  simp only [Bool.not_eq_true'] at h1 h2 ⊢
  rw [Bool.eq_false_iff, ne_eq, symbolIndexLt_iff] at h1 h2 ⊢
  omega

/-- C5: SortSymbolIndexesByValue permutes the index list into ascending
resolved file address order, indexes whose symbols share an address ordered by
ascending symbol id, and the result is stable across repeated calls: sorting
the output again returns it unchanged (and the function is deterministic). -/
theorem sortSymbolIndexesByValue_ordered (st : Symtab) (indexes : List Nat) :
    (st.sortSymbolIndexesByValue indexes false).Perm indexes ∧
    (st.sortSymbolIndexesByValue indexes false).Pairwise (sortKeyLe st) ∧
    st.sortSymbolIndexesByValue (st.sortSymbolIndexesByValue indexes false) false =
      st.sortSymbolIndexesByValue indexes false := by
  by_cases h : indexes.length ≤ 1
  · have hres : st.sortSymbolIndexesByValue indexes false = indexes :=
      sortSymbolIndexesByValue_short st indexes false h
    have hpw : indexes.Pairwise (sortKeyLe st) := by
      cases indexes with
      | nil => simp
      | cons a t =>
        cases t with
        | nil => simp
        | cons b u => simp at h
    refine ⟨?_, ?_, ?_⟩
    · rw [hres]
    · rw [hres]
      exact hpw
    · rw [hres]
      exact hres
  · have hres := sortSymbolIndexesByValue_false_eq st indexes h
    have hpws := pairwise_stableSort (symbolIndexLe_total st) (symbolIndexLe_trans st) indexes
    refine ⟨?_, ?_, ?_⟩
    · rw [hres]
      exact stableSort_perm _ indexes
    · rw [hres]
      refine hpws.imp ?_
      intro a b hab
      simp only [Bool.not_eq_true'] at hab
      rw [Bool.eq_false_iff, ne_eq, symbolIndexLt_iff] at hab
      unfold sortKeyLe
      omega
    · rw [hres]
      by_cases h2 : (stableSort (fun a b => ! symbolIndexLt st b a) indexes).length ≤ 1
      · exact sortSymbolIndexesByValue_short st _ false h2
      · rw [sortSymbolIndexesByValue_false_eq st _ h2]
        exact stableSort_of_pairwise hpws

/-- C5 witness: the concrete scenario list [2, 0, 1] is sorted into the
(address, id) order. -/
theorem sortSymbolIndexesByValue_ordered_witness :
    (Symtab.sortSymbolIndexesByValue scenarioSymtab [2, 0, 1] false).Perm [2, 0, 1] ∧
    (Symtab.sortSymbolIndexesByValue scenarioSymtab [2, 0, 1] false).Pairwise (sortKeyLe scenarioSymtab) :=
  ⟨(sortSymbolIndexesByValue_ordered scenarioSymtab [2, 0, 1]).1,
   (sortSymbolIndexesByValue_ordered scenarioSymtab [2, 0, 1]).2.1⟩

/-- The plain ≤ comparator on indexes is total. -/
theorem natLe_total : ∀ a b : Nat, natLe a b = true ∨ natLe b a = true := by
  intro a b
  unfold natLe
  rcases Nat.le_total a b with h | h
  · exact Or.inl (by simpa using h)
  · exact Or.inr (by simpa using h)

/-- The plain ≤ comparator on indexes is transitive. -/
theorem natLe_trans : ∀ a b c : Nat, natLe a b = true → natLe b c = true → natLe a c = true := by
  intro a b c h1 h2
  unfold natLe at h1 h2 ⊢
  simp only [decide_eq_true_eq] at h1 h2 ⊢
  omega

/-- Sorting then adjacent-deduplicating a list of indexes yields a strictly
sorted list with the same members. -/
theorem sortDedup_pairwise_mem (l : List Nat) :
    ((if l = [] then [] else dedupAdjacent (stableSort natLe l)).Pairwise (· < ·)) ∧
    (∀ i, i ∈ (if l = [] then [] else dedupAdjacent (stableSort natLe l)) ↔ i ∈ l) := by
  by_cases h : l = []
  · subst h
    simp
  · rw [if_neg h]
    have hp : (stableSort natLe l).Pairwise (· ≤ ·) := by
      refine (pairwise_stableSort natLe_total natLe_trans l).imp ?_
      intro a b hab
      simpa [natLe] using hab
    constructor
    · exact pairwise_lt_dedupAdjacent hp
    · intro i
      rw [mem_dedupAdjacent, mem_stableSort]

/-- C8: FindFunctionSymbols collects the union of the lookup strategies
selected by its name-type bitmask, sorts the collected indexes ascending and
removes adjacent duplicates, so the materialized indexes are strictly
increasing (each symbol appears exactly once) and an index is present exactly
when at least one selected strategy produced it; and on the spec scenario,
FindFunctionSymbols("foo", eFunctionNameTypeMethod) returns exactly the symbol
with id 1. -/
theorem findFunctionSymbols_union_dedup :
    (∀ (ext : Externals) (st : Symtab) (name : String) (mask : Nat),
      (Symtab.findFunctionSymbolIndexes ext st name mask).Pairwise (· < ·)) ∧
    (∀ (ext : Externals) (st : Symtab) (name : String) (mask : Nat) (i : Nat),
      i ∈ Symtab.findFunctionSymbolIndexes ext st name mask ↔
        ((mask &&& (eFunctionNameTypeBase ||| eFunctionNameTypeFull) ≠ 0 ∧ i ∈ st.ffsFullBaseIndexes ext name) ∨
         (mask &&& eFunctionNameTypeBase ≠ 0 ∧ i ∈ st.ffsBasenameIndexes ext name) ∨
         (mask &&& eFunctionNameTypeMethod ≠ 0 ∧ i ∈ st.ffsMethodIndexes ext name) ∨
         (mask &&& eFunctionNameTypeSel ≠ 0 ∧ i ∈ st.ffsSelIndexes ext name))) ∧
    Symtab.findFunctionSymbols scenarioExt scenarioSymtab "foo" eFunctionNameTypeMethod = [scenarioFoo] ∧
    scenarioFoo.uid = 1 := by
  refine ⟨?_, ?_, by decide, by decide⟩
  · intro ext st name mask
    exact (sortDedup_pairwise_mem (st.ffsCollectedIndexes ext name mask)).1
  · intro ext st name mask i
    have hmem := (sortDedup_pairwise_mem (st.ffsCollectedIndexes ext name mask)).2 i
    have hite : ∀ (c : Prop) (inst : Decidable c) (L : List Nat),
        (i ∈ (if c then L else [])) ↔ (c ∧ i ∈ L) := by
      intro c inst L
      by_cases hc : c <;> simp [hc]
    calc i ∈ Symtab.findFunctionSymbolIndexes ext st name mask
        ↔ i ∈ st.ffsCollectedIndexes ext name mask := hmem
      _ ↔ _ := by
          unfold Symtab.ffsCollectedIndexes
          simp only [List.mem_append]
          rw [hite _ _ (st.ffsFullBaseIndexes ext name), hite _ _ (st.ffsBasenameIndexes ext name),
              hite _ _ (st.ffsMethodIndexes ext name), hite _ _ (st.ffsSelIndexes ext name)]
          tauto

/-- C8 witness: the method-only lookup of "foo" on the scenario table yields
the single strictly sorted index list produced by the method strategy. -/
theorem findFunctionSymbols_union_dedup_witness :
    0 ∈ Symtab.findFunctionSymbolIndexes scenarioExt scenarioSymtab "foo" eFunctionNameTypeMethod ↔
      ((eFunctionNameTypeMethod &&& (eFunctionNameTypeBase ||| eFunctionNameTypeFull) ≠ 0 ∧
          0 ∈ scenarioSymtab.ffsFullBaseIndexes scenarioExt "foo") ∨
       (eFunctionNameTypeMethod &&& eFunctionNameTypeBase ≠ 0 ∧
          0 ∈ scenarioSymtab.ffsBasenameIndexes scenarioExt "foo") ∨
       (eFunctionNameTypeMethod &&& eFunctionNameTypeMethod ≠ 0 ∧
          0 ∈ scenarioSymtab.ffsMethodIndexes scenarioExt "foo") ∨
       (eFunctionNameTypeMethod &&& eFunctionNameTypeSel ≠ 0 ∧
          0 ∈ scenarioSymtab.ffsSelIndexes scenarioExt "foo")) :=
  findFunctionSymbols_union_dedup.2.1 scenarioExt scenarioSymtab "foo" eFunctionNameTypeMethod 0

/-- A found containing section actually contains the address. -/
theorem findContainingRange_some (rs : List SectRange) (addr : Nat) (cs : SectRange)
    (h : findContainingRange rs addr = some cs) :
    cs.base ≤ addr ∧ addr < cs.base + cs.size := by
  have := List.find?_some h
  simpa using this

/-- A positional default read of an in-range index is a member of the dropped
suffix starting there. -/
theorem getD_mem_drop {α : Type} [Inhabited α] (l : List α) (i : Nat) (hi : i < l.length) :
    l.getD i default ∈ l.drop i := by
  have hq : l.get? i = some (l.getD i default) := by
    rw [List.get?_eq_get hi]
    simp [List.getD_eq_getElem?_getD, List.getElem?_eq_getElem hi]
  have hq0 : (l.drop i).get? 0 = some (l.getD i default) := by
    rw [List.get?_drop]
    simpa using hq
  exact List.get?_mem hq0

/-- The size-synthesis bounds of InitAddressIndexes for one entry of the
sorted address-entry vector: the synthesized candidate never exceeds the
distance to the end of the containing section, and never reaches past the base
of any entry with a strictly greater base address. -/
theorem synthSizeFor_bounds (sections : List SectRange) (entries : List FileRangeEntry) (i : Nat)
    (hi : i < entries.length)
    (hpw : entries.Pairwise (fun a b => a.base ≤ b.base)) :
    (∀ cs, findContainingRange sections (entries.getD i default).base = some cs →
       synthSizeFor sections entries i ≤ cs.base + cs.size - (entries.getD i default).base) ∧
    (∀ e ∈ entries, (entries.getD i default).base < e.base →
       (entries.getD i default).base + synthSizeFor sections entries i ≤ e.base) := by
  have he0mem : entries.getD i default ∈ entries.drop i := getD_mem_drop entries i hi
  have hsplit := List.take_append_drop i entries
  have hpwtd : (entries.take i ++ entries.drop i).Pairwise (fun a b => a.base ≤ b.base) := by
    rw [hsplit]; exact hpw
  have htakedrop := (List.pairwise_append.mp hpwtd).2.2
  have hpwdrop : (entries.drop i).Pairwise (fun a b => a.base ≤ b.base) :=
    hpw.sublist (List.drop_sublist i entries)
  constructor
  · intro cs hcs
    have hcont := findContainingRange_some sections (entries.getD i default).base cs hcs
    cases hf : (entries.drop i).find? (fun ne => decide ((entries.getD i default).base < ne.base)) with
    | none =>
      have hval : synthSizeFor sections entries i =
          cs.size - ((entries.getD i default).base - cs.base) := by
        simp only [synthSizeFor, hcs, hf]
      rw [hval]
      omega
    | some ne =>
      have hval : synthSizeFor sections entries i =
          (if cs.size - ((entries.getD i default).base - cs.base) = 0 ∨
              ne.base - (entries.getD i default).base < cs.size - ((entries.getD i default).base - cs.base)
           then ne.base - (entries.getD i default).base
           else cs.size - ((entries.getD i default).base - cs.base)) := by
        simp only [synthSizeFor, hcs, hf]
      rw [hval]
      by_cases hcond : cs.size - ((entries.getD i default).base - cs.base) = 0 ∨
          ne.base - (entries.getD i default).base < cs.size - ((entries.getD i default).base - cs.base)
      · rw [if_pos hcond]
        omega
      · rw [if_neg hcond]
        omega
  · intro e he hgt
    cases hf : (entries.drop i).find? (fun ne => decide ((entries.getD i default).base < ne.base)) with
    | none =>
      exfalso
      have hnone := List.find?_eq_none.mp hf
      have he2 : e ∈ entries.take i ++ entries.drop i := by rw [hsplit]; exact he
      rcases List.mem_append.mp he2 with ht | hd
      · have := htakedrop e ht (entries.getD i default) he0mem
        omega
      · have := hnone e hd
        simp only [decide_eq_true_eq] at this
        exact this hgt
    | some ne =>
      have hne : (entries.getD i default).base < ne.base := by
        have := List.find?_some hf
        simpa using this
      have hval : synthSizeFor sections entries i ≤ ne.base - (entries.getD i default).base := by
        cases hcs : findContainingRange sections (entries.getD i default).base with
        | none =>
          have : synthSizeFor sections entries i =
              (if (0 : Nat) = 0 ∨ ne.base - (entries.getD i default).base < 0
               then ne.base - (entries.getD i default).base else 0) := by
            simp only [synthSizeFor, hcs, hf]
          rw [this, if_pos (Or.inl rfl)]
        | some cs =>
          have : synthSizeFor sections entries i =
              (if cs.size - ((entries.getD i default).base - cs.base) = 0 ∨
                  ne.base - (entries.getD i default).base < cs.size - ((entries.getD i default).base - cs.base)
               then ne.base - (entries.getD i default).base
               else cs.size - ((entries.getD i default).base - cs.base)) := by
            simp only [synthSizeFor, hcs, hf]
          rw [this]
          by_cases hcond : cs.size - ((entries.getD i default).base - cs.base) = 0 ∨
              ne.base - (entries.getD i default).base < cs.size - ((entries.getD i default).base - cs.base)
          · rw [if_pos hcond]
          · rw [if_neg hcond]
            omega
      have hnele : ne.base ≤ e.base := by
        obtain ⟨hpne, as, bs, hdecomp, hfail⟩ := List.find?_eq_some.mp hf
        have he2 : e ∈ entries.take i ++ entries.drop i := by rw [hsplit]; exact he
        rcases List.mem_append.mp he2 with ht | hd
        · exfalso
          have := htakedrop e ht (entries.getD i default) he0mem
          omega
        · rw [hdecomp] at hd hpwdrop
          rcases List.mem_append.mp hd with has | hnb
          · exfalso
            have := hfail e has
            simp only [Bool.not_eq_true', decide_eq_false_iff_not] at this
            exact this hgt
          · rcases List.mem_cons.mp hnb with rfl | hbs
            · exact Nat.le_refl _
            · have hp2 := (List.pairwise_append.mp hpwdrop).2.1
              exact (List.pairwise_cons.mp hp2).1 e hbs
      omega

/-- The sorted address-entry vector is pairwise ordered by base address. -/
theorem addressEntriesSorted_pairwise (st : Symtab) :
    st.addressEntriesSorted.Pairwise (fun a b => a.base ≤ b.base) := by
  have htot : ∀ a b : FileRangeEntry, fileRangeLe a b = true ∨ fileRangeLe b a = true := by
    intro a b
    unfold fileRangeLe
    rcases Nat.le_total a.base b.base with h | h
    · exact Or.inl (by simpa using h)
    · exact Or.inr (by simpa using h)
  have htr : ∀ a b c : FileRangeEntry,
      fileRangeLe a b = true → fileRangeLe b c = true → fileRangeLe a c = true := by
    intro a b c h1 h2
    unfold fileRangeLe at h1 h2 ⊢
    simp only [decide_eq_true_eq] at h1 h2 ⊢
    omega
  refine (pairwise_stableSort htot htr st.addressEntries).imp ?_
  intro a b hab
  simpa [fileRangeLe] using hab

/-- C2: For every entry of the sorted address vector with a zero declared
size, the size synthesized by InitAddressIndexes never exceeds the distance
from the entry's base address to the end of its containing section, and never
makes the entry's range reach past the base address of any entry (hence of the
next entry) with a strictly greater base address. -/
theorem initAddressIndexes_synthSize_bounds (st : Symtab) (i : Nat)
    (hi : i < st.addressEntriesSorted.length)
    (hz : (st.addressEntriesSorted.getD i default).size = 0) :
    (∀ cs, findContainingRange st.sectionRangesSorted (st.addressEntriesSorted.getD i default).base = some cs →
       synthSizeFor st.sectionRangesSorted st.addressEntriesSorted i ≤
         cs.base + cs.size - (st.addressEntriesSorted.getD i default).base) ∧
    (∀ e ∈ st.addressEntriesSorted, (st.addressEntriesSorted.getD i default).base < e.base →
       (st.addressEntriesSorted.getD i default).base +
         synthSizeFor st.sectionRangesSorted st.addressEntriesSorted i ≤ e.base) :=
  synthSizeFor_bounds st.sectionRangesSorted st.addressEntriesSorted i hi
    (addressEntriesSorted_pairwise st)

/-- C2 witness: in the spec scenario, foo's entry (position 0, zero declared
size) synthesizes within its containing section [0x1000, 0x1020) and does not
reach bar's base 0x1010. -/
theorem initAddressIndexes_synthSize_bounds_witness :
    synthSizeFor scenarioSymtab.sectionRangesSorted scenarioSymtab.addressEntriesSorted 0 ≤
      4096 + 32 - (scenarioSymtab.addressEntriesSorted.getD 0 default).base ∧
    (scenarioSymtab.addressEntriesSorted.getD 0 default).base +
      synthSizeFor scenarioSymtab.sectionRangesSorted scenarioSymtab.addressEntriesSorted 0 ≤ 4112 := by
  have h := initAddressIndexes_synthSize_bounds scenarioSymtab 0 (by decide) (by decide)
  constructor
  · exact h.1 ⟨4096, 32⟩ (by decide)
  · exact h.2 ⟨4112, 0, 1⟩ (by decide) (by decide)

/-- Every collected address entry carries its symbol's declared size: the
entry at table position data was built from the symbol stored there. -/
theorem addressEntries_size_inv (st : Symtab) :
    ∀ e ∈ st.addressEntries, ∃ se, st.symbols.get? e.data = some se ∧ e.size = se.byteSize := by
  intro e he
  unfold Symtab.addressEntries at he
  rcases List.mem_filterMap.mp he with ⟨iv, hiv, hmk⟩
  by_cases haddr : iv.2.valueIsAddress = true
  · rw [if_pos haddr] at hmk
    refine ⟨iv.2, ?_, ?_⟩
    · have hq : st.symbols[iv.1]? = some iv.2 := by
        have : (iv.1, iv.2) ∈ st.symbols.enum := by
          rcases iv with ⟨a, b⟩
          exact hiv
        exact List.mem_enum_iff_getElem?.mp this
      cases hmk
      simpa [List.get?_eq_getElem?] using hq
    · cases hmk
      rfl
  · rw [if_neg haddr] at hmk
    cases hmk

/-- The size invariant carries over to the sorted entry vector. -/
theorem addressEntriesSorted_size_inv (st : Symtab) :
    ∀ e ∈ st.addressEntriesSorted, ∃ se, st.symbols.get? e.data = some se ∧ e.size = se.byteSize := by
  intro e he
  exact addressEntries_size_inv st e (mem_stableSort.mp he)

/-- Updating one position leaves every other position unchanged. -/
theorem updateSymbolSize_get_ne (syms : List Symbol) (pos sz i : Nat) (h : pos ≠ i) :
    (updateSymbolSize syms pos sz).get? i = syms.get? i := by
  unfold updateSymbolSize
  cases hq : syms.get? pos with
  | none => rfl
  | some s => exact List.get?_set_ne _ syms h

/-- The symbol-update fold of InitAddressIndexes leaves every symbol with a
non-zero declared size untouched. -/
theorem synthFold_preserves (sections : List SectRange) (entries : List FileRangeEntry)
    (syms : List Symbol) (i : Nat) (s : Symbol)
    (hinv : ∀ e ∈ entries, ∃ se, syms.get? e.data = some se ∧ e.size = se.byteSize)
    (hs : s.byteSize ≠ 0) (hsi : syms.get? i = some s) :
    ∀ (L : List Nat), (∀ j ∈ L, j < entries.length) →
      ∀ (ss : List Symbol), ss.get? i = some s →
      (L.foldl
        (fun ss j =>
          let e := entries.getD j default
          if e.size = 0 then
            let sz := synthSizeFor sections entries j
            if 0 < sz then updateSymbolSize ss e.data sz else ss
          else ss)
        ss).get? i = some s := by
  intro L
  induction L with
  | nil => intro _ ss hss; exact hss
  | cons j t ih =>
    intro hL ss hss
    rw [List.foldl_cons]
    refine ih (fun x hx => hL x (by simp [hx])) _ ?_
    have hj : j < entries.length := hL j (by simp)
    have hemem : entries.getD j default ∈ entries := by
      have hq : entries.get? j = some (entries.getD j default) := by
        rw [List.get?_eq_get hj]
        simp [List.getD_eq_getElem?_getD, List.getElem?_eq_getElem hj]
      exact List.get?_mem hq
    by_cases hz : (entries.getD j default).size = 0
    · rw [if_pos hz]
      by_cases hsz : 0 < synthSizeFor sections entries j
      · rw [if_pos hsz]
        rcases hinv _ hemem with ⟨se, hse, hsize⟩
        have hdne : (entries.getD j default).data ≠ i := by
          intro heq
          rw [heq, hsi] at hse
          cases hse
          rw [hz] at hsize
          exact hs hsize.symm
        rw [updateSymbolSize_get_ne _ _ _ _ hdne]
        exact hss
      · rw [if_neg hsz]
        exact hss
    · rw [if_neg hz]
      exact hss

/-- InitAddressIndexes leaves every symbol with a non-zero declared size
completely unchanged. -/
theorem initAddressIndexes_preserves_size (st : Symtab) (i : Nat) (s : Symbol)
    (hsi : st.symbols.get? i = some s) (hs : s.byteSize ≠ 0) :
    st.initAddressIndexes.symbols.get? i = some s := by
  rw [Symtab.initAddressIndexes]
  by_cases h1 : st.fileAddrToIndexComputed = true ∨ st.symbols = []
  · rw [if_pos h1]
    exact hsi
  · rw [if_neg h1]
    by_cases h2 : st.addressEntriesSorted = []
    · rw [if_pos h2]
      exact hsi
    · rw [if_neg h2]
      show (synthSymbols st.sectionRangesSorted st.addressEntriesSorted st.symbols).get? i = some s
      unfold synthSymbols
      refine synthFold_preserves st.sectionRangesSorted st.addressEntriesSorted st.symbols i s
        (addressEntriesSorted_size_inv st) hs hsi (List.range st.addressEntriesSorted.length) ?_
        st.symbols hsi
      intro j hj
      exact List.mem_range.mp hj

/-- One CalculateSymbolSizes step leaves a position holding a symbol whose
size is already valid unchanged. -/
theorem calcStep_preserves (i : Nat) (s : Symbol) (hs : s.byteSize ≠ 0)
    (ss : List Symbol) (e : FileRangeEntry) (hss : ss.get? i = some s) :
    (calcStep ss e).get? i = some s := by
  unfold calcStep
  split
  · rename_i sym hq
    by_cases hv : sym.byteSizeIsValid = true
    · rw [if_pos hv]
      exact hss
    · rw [if_neg hv]
      have hdne : e.data ≠ i := by
        intro heq
        rw [heq, hss] at hq
        cases hq
        exact hv (by simpa [Symbol.byteSizeIsValid] using hs)
      by_cases hsz : 0 < e.size
      · rw [if_pos hsz]
        rw [List.get?_set_ne _ ss hdne]
        exact hss
      · rw [if_neg hsz]
        exact hss
  · exact hss

/-- The CalculateSymbolSizes fold leaves every position holding a symbol whose
size is already valid unchanged. -/
theorem calcFold_preserves (i : Nat) (s : Symbol) (hs : s.byteSize ≠ 0) :
    ∀ (L : List FileRangeEntry) (ss : List Symbol), ss.get? i = some s →
      (L.foldl calcStep ss).get? i = some s := by
  intro L
  induction L with
  | nil => intro ss hss; exact hss
  | cons e t ih =>
    intro ss hss
    rw [List.foldl_cons]
    exact ih _ (calcStep_preserves i s hs ss e hss)

/-- C6: Size synthesis never overwrites an authoritative size: a symbol whose
declared byte size is non-zero (equivalently, whose byte size is valid, since
Symbol::SetByteSize marks validity exactly for positive sizes) is left
completely unchanged — in particular its byte size and its size-is-synthesized
flag — by both InitAddressIndexes and CalculateSymbolSizes; only zero-sized
symbols can receive a synthesized size. -/
theorem sizeSynthesis_preserves_authoritative (st : Symtab) (i : Nat) (s : Symbol)
    (hsi : st.symbols.get? i = some s) (hs : s.byteSize ≠ 0) :
    st.initAddressIndexes.symbols.get? i = some s ∧
    st.calculateSymbolSizes.symbols.get? i = some s := by
  refine ⟨initAddressIndexes_preserves_size st i s hsi hs, ?_⟩
  rw [Symtab.calculateSymbolSizes]
  by_cases h1 : st.symbols = []
  · rw [if_pos h1]
    exact hsi
  · rw [if_neg h1]
    show (st.initAddressIndexes.fileAddrToIndex.foldl calcStep st.initAddressIndexes.symbols).get? i = some s
    exact calcFold_preserves i s hs _ _ (initAddressIndexes_preserves_size st i s hsi hs)

/-- C6 witness: in the spec scenario, g_var (declared size 0x100) is unchanged
by both InitAddressIndexes and CalculateSymbolSizes. -/
theorem sizeSynthesis_preserves_authoritative_witness :
    scenarioSymtab.initAddressIndexes.symbols.get? 2 = some scenarioGvar ∧
    scenarioSymtab.calculateSymbolSizes.symbols.get? 2 = some scenarioGvar :=
  sizeSynthesis_preserves_authoritative scenarioSymtab 2 scenarioGvar (by decide) (by decide)

/-- The demangled/Objective-C block touches only the ALL and SELECTORS
indexes: the deferred collection and the basename index pass through. -/
theorem processDemangled_fields (ext : Externals) (ps : NamePassState) (i : Nat) (sym : Symbol) :
    (processDemangled ext ps i sym).deferredNames = ps.deferredNames ∧
    (processDemangled ext ps i sym).basenameToIndex = ps.basenameToIndex := by
  refine ⟨?_, ?_⟩ <;>
  · simp only [processDemangled, NamePassState.appendName, NamePassState.appendSel]
    split_ifs <;> rfl

/-- The C++ classification either leaves the deferred collection and the
basename index unchanged, or appends exactly one deferred entry for this
symbol index, or appends exactly one basename entry for this symbol index. -/
theorem classifyCxx_char (ext : Externals) (ps : NamePassState) (i : Nat) (sym : Symbol) :
    ((classifyCxxSymbol ext ps i sym).deferredNames = ps.deferredNames ∧
     (classifyCxxSymbol ext ps i sym).basenameToIndex = ps.basenameToIndex) ∨
    (∃ bn, (classifyCxxSymbol ext ps i sym).deferredNames = ps.deferredNames ++ [(bn, i)] ∧
     (classifyCxxSymbol ext ps i sym).basenameToIndex = ps.basenameToIndex) ∨
    (∃ bn, (classifyCxxSymbol ext ps i sym).deferredNames = ps.deferredNames ∧
     (classifyCxxSymbol ext ps i sym).basenameToIndex = ps.basenameToIndex ++ [(bn, i)]) := by
  simp only [classifyCxxSymbol, NamePassState.recordContext, NamePassState.appendMethod,
    NamePassState.deferEntry, NamePassState.appendBasename]
  split_ifs <;>
    first
      | exact Or.inl ⟨rfl, rfl⟩
      | exact Or.inr (Or.inl ⟨_, rfl, rfl⟩)
      | exact Or.inr (Or.inr ⟨_, rfl, rfl⟩)

/-- The mangled-name block has the same three possible effects on the deferred
collection and the basename index as the C++ classification it wraps. -/
theorem processMangled_char (ext : Externals) (ps : NamePassState) (i : Nat) (sym : Symbol) :
    ((processMangled ext ps i sym).deferredNames = ps.deferredNames ∧
     (processMangled ext ps i sym).basenameToIndex = ps.basenameToIndex) ∨
    (∃ bn, (processMangled ext ps i sym).deferredNames = ps.deferredNames ++ [(bn, i)] ∧
     (processMangled ext ps i sym).basenameToIndex = ps.basenameToIndex) ∨
    (∃ bn, (processMangled ext ps i sym).deferredNames = ps.deferredNames ∧
     (processMangled ext ps i sym).basenameToIndex = ps.basenameToIndex ++ [(bn, i)]) := by
  simp only [processMangled, NamePassState.appendName]
  split_ifs <;>
    first
      | exact classifyCxx_char ext _ i sym
      | exact Or.inl ⟨rfl, rfl⟩

/-- One loop iteration of InitNameIndexes leaves the deferred collection and
the basename index unchanged, or appends one deferred entry, or appends one
basename entry, always carrying the processed symbol's index. -/
theorem processSymbol_char (ext : Externals) (ps : NamePassState) (iv : Nat × Symbol) :
    ((processSymbol ext ps iv).deferredNames = ps.deferredNames ∧
     (processSymbol ext ps iv).basenameToIndex = ps.basenameToIndex) ∨
    (∃ bn, (processSymbol ext ps iv).deferredNames = ps.deferredNames ++ [(bn, iv.1)] ∧
     (processSymbol ext ps iv).basenameToIndex = ps.basenameToIndex) ∨
    (∃ bn, (processSymbol ext ps iv).deferredNames = ps.deferredNames ∧
     (processSymbol ext ps iv).basenameToIndex = ps.basenameToIndex ++ [(bn, iv.1)]) := by
  unfold processSymbol
  split_ifs with h
  · exact Or.inl ⟨rfl, rfl⟩
  · have hd := processDemangled_fields ext (processMangled ext ps iv.1 iv.2) iv.1 iv.2
    rcases processMangled_char ext ps iv.1 iv.2 with ⟨h1, h2⟩ | ⟨bn, h1, h2⟩ | ⟨bn, h1, h2⟩
    · exact Or.inl ⟨hd.1.trans h1, hd.2.trans h2⟩
    · exact Or.inr (Or.inl ⟨bn, hd.1.trans h1, hd.2.trans h2⟩)
    · exact Or.inr (Or.inr ⟨bn, hd.1.trans h1, hd.2.trans h2⟩)

/-- Invariant of the main InitNameIndexes loop: all deferred and basename
entries carry indexes of already-processed symbols, and the deferred
collection and the basename index never record the same symbol index (each
symbol goes to at most one of them). -/
theorem namePassFold_inv (ext : Externals) :
    ∀ (syms : List Symbol) (k : Nat) (ps : NamePassState),
      (∀ p ∈ ps.deferredNames, p.2 < k) →
      (∀ p ∈ ps.basenameToIndex, p.2 < k) →
      (∀ p ∈ ps.deferredNames, ∀ q ∈ ps.basenameToIndex, p.2 ≠ q.2) →
      ((∀ p ∈ ((List.enumFrom k syms).foldl (processSymbol ext) ps).deferredNames,
          p.2 < k + syms.length) ∧
       (∀ p ∈ ((List.enumFrom k syms).foldl (processSymbol ext) ps).basenameToIndex,
          p.2 < k + syms.length) ∧
       (∀ p ∈ ((List.enumFrom k syms).foldl (processSymbol ext) ps).deferredNames,
        ∀ q ∈ ((List.enumFrom k syms).foldl (processSymbol ext) ps).basenameToIndex,
          p.2 ≠ q.2)) := by
  intro syms
  induction syms with
  | nil =>
    intro k ps hd hb hdisj
    refine ⟨?_, ?_, ?_⟩
    · intro p hp
      have := hd p hp
      simpa using Nat.lt_of_lt_of_le this (by omega)
    · intro p hp
      have := hb p hp
      simpa using Nat.lt_of_lt_of_le this (by omega)
    · exact hdisj
  | cons s t ih =>
    intro k ps hd hb hdisj
    rw [List.enumFrom_cons, List.foldl_cons]
    have hstep := processSymbol_char ext ps (k, s)
    have harith : (k + 1) + t.length = k + (s :: t).length := by simp; omega
    have hnext :
        (∀ p ∈ (processSymbol ext ps (k, s)).deferredNames, p.2 < k + 1) ∧
        (∀ p ∈ (processSymbol ext ps (k, s)).basenameToIndex, p.2 < k + 1) ∧
        (∀ p ∈ (processSymbol ext ps (k, s)).deferredNames,
         ∀ q ∈ (processSymbol ext ps (k, s)).basenameToIndex, p.2 ≠ q.2) := by
      rcases hstep with ⟨h1, h2⟩ | ⟨bn, h1, h2⟩ | ⟨bn, h1, h2⟩
      · refine ⟨?_, ?_, ?_⟩
        · intro p hp
          rw [h1] at hp
          exact Nat.lt_succ_of_lt (hd p hp)
        · intro p hp
          rw [h2] at hp
          exact Nat.lt_succ_of_lt (hb p hp)
        · intro p hp q hq
          rw [h1] at hp
          rw [h2] at hq
          exact hdisj p hp q hq
      · refine ⟨?_, ?_, ?_⟩
        · intro p hp
          rw [h1] at hp
          rcases List.mem_append.mp hp with hp1 | hp2
          · exact Nat.lt_succ_of_lt (hd p hp1)
          · rcases List.mem_singleton.mp hp2 with rfl
            exact Nat.lt_succ_self k
        · intro p hp
          rw [h2] at hp
          exact Nat.lt_succ_of_lt (hb p hp)
        · intro p hp q hq
          rw [h1] at hp
          rw [h2] at hq
          rcases List.mem_append.mp hp with hp1 | hp2
          · exact hdisj p hp1 q hq
          · rcases List.mem_singleton.mp hp2 with rfl
            have := hb q hq
            simp only []
            omega
      · refine ⟨?_, ?_, ?_⟩
        · intro p hp
          rw [h1] at hp
          exact Nat.lt_succ_of_lt (hd p hp)
        · intro p hp
          rw [h2] at hp
          rcases List.mem_append.mp hp with hp1 | hp2
          · exact Nat.lt_succ_of_lt (hb p hp1)
          · rcases List.mem_singleton.mp hp2 with rfl
            exact Nat.lt_succ_self k
        · intro p hp q hq
          rw [h1] at hp
          rw [h2] at hq
          rcases List.mem_append.mp hq with hq1 | hq2
          · exact hdisj p hp q hq1
          · rcases List.mem_singleton.mp hq2 with rfl
            have := hd p hp
            simp only []
            omega
    have := ih (k + 1) (processSymbol ext ps (k, s)) hnext.1 hnext.2.1 hnext.2.2
    rw [harith] at this
    exact this

/-- One resolution step always appends the entry to METHODS and otherwise
only possibly appends it to BASENAMES; the pass-local data is untouched. -/
theorem resolveDeferredEntry_fields (ps : NamePassState) (q : String × Nat) :
    (resolveDeferredEntry ps q).methodToIndex = ps.methodToIndex ++ [q] ∧
    (resolveDeferredEntry ps q).symbolContexts = ps.symbolContexts ∧
    (resolveDeferredEntry ps q).classContexts = ps.classContexts ∧
    (resolveDeferredEntry ps q).deferredNames = ps.deferredNames := by
  unfold resolveDeferredEntry NamePassState.appendMethod NamePassState.appendBasename
  split_ifs <;> exact ⟨rfl, rfl, rfl, rfl⟩

/-- The known-class test depends only on the pass-local data. -/
theorem deferredIsKnownClassB_congr (a b : NamePassState)
    (h1 : a.symbolContexts = b.symbolContexts) (h2 : a.classContexts = b.classContexts)
    (p : String × Nat) :
    deferredIsKnownClassB a p = deferredIsKnownClassB b p := by
  unfold deferredIsKnownClassB
  rw [h1, h2]

/-- The resolution fold only grows the method index. -/
theorem resolveFold_method_mono :
    ∀ (l : List (String × Nat)) (acc : NamePassState) (x : String × Nat),
      x ∈ acc.methodToIndex → x ∈ (l.foldl resolveDeferredEntry acc).methodToIndex := by
  intro l
  induction l with
  | nil => intro acc x h; exact h
  | cons q t ih =>
    intro acc x h
    rw [List.foldl_cons]
    refine ih _ x ?_
    rw [(resolveDeferredEntry_fields acc q).1]
    exact List.mem_append_left _ h

/-- Every entry fed to the resolution fold ends up in the method index. -/
theorem resolveFold_method_mem :
    ∀ (l : List (String × Nat)) (acc : NamePassState) (p : String × Nat),
      p ∈ l → p ∈ (l.foldl resolveDeferredEntry acc).methodToIndex := by
  intro l
  induction l with
  | nil => intro acc p h; cases h
  | cons q t ih =>
    intro acc p h
    rw [List.foldl_cons]
    rcases List.mem_cons.mp h with rfl | ht
    · refine resolveFold_method_mono t _ p ?_
      rw [(resolveDeferredEntry_fields acc p).1]
      exact List.mem_append_right _ (by simp)
    · exact ih _ p ht

/-- The resolution fold only grows the basename index. -/
theorem resolveFold_basename_mono :
    ∀ (l : List (String × Nat)) (acc : NamePassState) (x : String × Nat),
      x ∈ acc.basenameToIndex → x ∈ (l.foldl resolveDeferredEntry acc).basenameToIndex := by
  intro l
  induction l with
  | nil => intro acc x h; exact h
  | cons q t ih =>
    intro acc x h
    rw [List.foldl_cons]
    refine ih _ x ?_
    unfold resolveDeferredEntry NamePassState.appendMethod NamePassState.appendBasename
    split_ifs
    · exact h
    · exact List.mem_append_left _ h

/-- An entry fed to the resolution fold whose context is not a known class
lands in the basename index. -/
theorem resolveFold_basename_mem :
    ∀ (l : List (String × Nat)) (acc : NamePassState) (p : String × Nat),
      p ∈ l → deferredIsKnownClassB acc p = false →
      p ∈ (l.foldl resolveDeferredEntry acc).basenameToIndex := by
  intro l
  induction l with
  | nil => intro acc p h; cases h
  | cons q t ih =>
    intro acc p h hk
    rw [List.foldl_cons]
    rcases List.mem_cons.mp h with rfl | ht
    · refine resolveFold_basename_mono t _ p ?_
      unfold resolveDeferredEntry NamePassState.appendMethod NamePassState.appendBasename
      rw [if_neg (by rw [hk]; exact Bool.false_ne_true)]
      exact List.mem_append_right _ (by simp)
    · refine ih _ p ht ?_
      rw [deferredIsKnownClassB_congr (resolveDeferredEntry acc q) acc
        (resolveDeferredEntry_fields acc q).2.1 (resolveDeferredEntry_fields acc q).2.2.1 p]
      exact hk

/-- Everything in the basename index after the resolution fold was either
already there or is a fed entry whose context was not a known class. -/
theorem resolveFold_basename_char :
    ∀ (l : List (String × Nat)) (acc : NamePassState) (x : String × Nat),
      x ∈ (l.foldl resolveDeferredEntry acc).basenameToIndex →
      x ∈ acc.basenameToIndex ∨ (x ∈ l ∧ deferredIsKnownClassB acc x = false) := by
  intro l
  induction l with
  | nil => intro acc x h; exact Or.inl h
  | cons q t ih =>
    intro acc x h
    rw [List.foldl_cons] at h
    rcases ih _ x h with hacc | ⟨hint, hk⟩
    · by_cases hq : deferredIsKnownClassB acc q = true
      · left
        unfold resolveDeferredEntry at hacc
        rw [if_pos hq] at hacc
        exact hacc
      · unfold resolveDeferredEntry at hacc
        rw [if_neg hq] at hacc
        rcases List.mem_append.mp hacc with h1 | h2
        · exact Or.inl h1
        · rcases List.mem_singleton.mp h2 with rfl
          exact Or.inr ⟨by simp, Bool.not_eq_true _ ▸ hq⟩
    · rw [deferredIsKnownClassB_congr (resolveDeferredEntry acc q) acc
        (resolveDeferredEntry_fields acc q).2.1 (resolveDeferredEntry_fields acc q).2.2.1 x] at hk
      exact Or.inr ⟨List.mem_cons_of_mem q hint, hk⟩

/-- C3: After the full pass of InitNameIndexes on a freshly built table, every
deferred entry whose context has become a known class context is placed into
the METHODS index and not into BASENAMES, while every deferred entry whose
context is still unknown is placed into both METHODS and BASENAMES. -/
theorem initNameIndexes_deferred_resolution (ext : Externals) (st : Symtab)
    (hb : st.basenameToIndex = []) (hc : st.nameIndexesComputed = false)
    (p : String × Nat) (hp : p ∈ (namePass ext st).deferredNames) :
    (deferredIsKnownClassB (namePass ext st) p = true →
      p ∈ (st.initNameIndexes ext).methodToIndex ∧
      p ∉ (st.initNameIndexes ext).basenameToIndex) ∧
    (deferredIsKnownClassB (namePass ext st) p = false →
      p ∈ (st.initNameIndexes ext).methodToIndex ∧
      p ∈ (st.initNameIndexes ext).basenameToIndex) := by
  have hcn : ¬(st.nameIndexesComputed = true) := by rw [hc]; exact Bool.false_ne_true
  have hinitm : (st.initNameIndexes ext).methodToIndex =
      (resolveDeferred (namePass ext st)).methodToIndex := by
    rw [Symtab.initNameIndexes, if_neg hcn]
  have hinitb : (st.initNameIndexes ext).basenameToIndex =
      (resolveDeferred (namePass ext st)).basenameToIndex := by
    rw [Symtab.initNameIndexes, if_neg hcn]
  have hinv := namePassFold_inv ext st.symbols 0 (initialPassState st)
    (by intro q hq; cases hq) (by rw [initialPassState]; intro q hq; rw [hb] at hq; cases hq)
    (by intro q hq; cases hq)
  have hdisj : ∀ a ∈ (namePass ext st).deferredNames,
      ∀ q ∈ (namePass ext st).basenameToIndex, a.2 ≠ q.2 := hinv.2.2
  have hmeth : p ∈ (resolveDeferred (namePass ext st)).methodToIndex :=
    resolveFold_method_mem (namePass ext st).deferredNames (namePass ext st) p hp
  constructor
  · intro hknown
    refine ⟨hinitm ▸ hmeth, ?_⟩
    rw [hinitb]
    intro hmem
    rcases resolveFold_basename_char (namePass ext st).deferredNames (namePass ext st) p hmem with
      hold | ⟨_, hfalse⟩
    · exact hdisj p hp p hold rfl
    · rw [hknown] at hfalse
      cases hfalse
  · intro hunknown
    exact ⟨hinitm ▸ hmeth, hinitb ▸
      resolveFold_basename_mem (namePass ext st).deferredNames (namePass ext st) p hp hunknown⟩

/-- C3 witness: in the spec scenario, the deferred entry ("foo", 0) has
context "A", which the pass never confirms as a class, so it is placed into
both METHODS and BASENAMES. -/
theorem initNameIndexes_deferred_resolution_witness :
    ("foo", 0) ∈ (scenarioSymtab.initNameIndexes scenarioExt).methodToIndex ∧
    ("foo", 0) ∈ (scenarioSymtab.initNameIndexes scenarioExt).basenameToIndex :=
  (initNameIndexes_deferred_resolution scenarioExt scenarioSymtab (by decide) (by decide)
    ("foo", 0) (by decide)).2 (by decide)

end LLDB
